import Mathlib

/-!
# Verification of the BRS auto-centering control loop

Shallow embedding of `src/brs_utils/auto_centering/auto_centering.py`.
Real-valued quantities (EPICS channel reads/writes, numpy floats) are
modelled as exact rationals `ℚ`; machine floats are idealized to real
arithmetic.  All definitions are executable so concrete scenarios can be
settled by `decide` / `rfl`.
-/

namespace BrsAutoCentering

/-! ## Threshold decision (auto_centering.py lines 153-176)

The source computes `increase_temperature`, a Python value in
`{True, False, None}`: `True` means the temperature control should be
increased ("direction Increase"), `False` decreased ("direction Decrease"),
`None` leaves it alone ("direction Hold").  We model it as `Option Bool`:
`some true` = Increase, `some false` = Decrease, `none` = Hold. -/

/-- `increase_temperature` from `brs_control` (lines 155-176):
`if drift > threshold_upper` → `some control_negated`;
`elif drift < threshold_lower` → `some (not control_negated)`;
`else` → `none` (Hold). -/
def increase_temperature (drift threshold_lower threshold_upper : ℚ)
    (control_negated : Bool) : Option Bool :=
  if drift > threshold_upper then
    -- Too high: increase iff control is negated
    some control_negated
  else if drift < threshold_lower then
    -- Too low: decrease iff control is negated
    some (!control_negated)
  else
    none

/-! ## Rounding (np.round with 2 decimals, half-to-even) -/

/-- Round a rational to the nearest integer, ties to even
(the IEEE / numpy rounding rule used by `np.round`). -/
def roundHalfEven (q : ℚ) : ℤ :=
  let f : ℤ := ⌊q⌋
  if q - f < 1/2 then f
  else if (1:ℚ)/2 < q - f then f + 1
  else if 2 ∣ f then f else f + 1

/-- `np.round(x, 2)`: round to 2 decimal places, ties to even. -/
def round2 (q : ℚ) : ℚ := (roundHalfEven (100 * q) : ℚ) / 100

/-! ## Integer square root

`np.sqrt` composed with `np.round(·, 2)` is evaluated exactly over `ℚ`
below (`round2_sqrt`).  For that we need the integer square root; we
implement it by Newton iteration with explicit fuel (same algorithm as
`Nat.sqrt`, restated with fuel so that kernel reduction works), and prove
it correct (`isqrt_spec`). -/

/-- Newton iteration for the integer square root.  The fuel only bounds
the number of steps; the iteration stops by itself as soon as the guess
stops decreasing. -/
def isqrt_iter (n : ℕ) : ℕ → ℕ → ℕ
  | 0, guess => guess
  | fuel + 1, guess =>
    let next := (guess + n / guess) / 2
    if next < guess then isqrt_iter n fuel next else guess

/-- Integer square root `⌊√n⌋` by Newton iteration from the initial guess
`n / 2` (fuel `n / 2` is enough because the guess strictly decreases). -/
def isqrt (n : ℕ) : ℕ :=
  if n ≤ 1 then n else isqrt_iter n (n / 2) (n / 2)

theorem isqrt_iter_spec (n : ℕ) (hn : 1 ≤ n) :
    ∀ fuel guess, 1 ≤ guess → guess ≤ fuel → n < (guess + 1) ^ 2 →
      (isqrt_iter n fuel guess) ^ 2 ≤ n ∧ n < (isqrt_iter n fuel guess + 1) ^ 2 := by
  intro fuel
  induction fuel with
  | zero => intro guess h1 hle _; omega
  | succ fuel ih =>
    intro guess h1 hle hub
    show (if (guess + n / guess) / 2 < guess then
        isqrt_iter n fuel ((guess + n / guess) / 2) else guess) ^ 2 ≤ n ∧
      n < ((if (guess + n / guess) / 2 < guess then
        isqrt_iter n fuel ((guess + n / guess) / 2) else guess) + 1) ^ 2
    by_cases hlt : (guess + n / guess) / 2 < guess
    · rw [if_pos hlt]
      set next := (guess + n / guess) / 2 with hnext
      -- the next guess is still positive
      have hpos : 1 ≤ next := by
        have key : 2 ≤ guess + n / guess := by
          rcases Nat.lt_or_ge guess 2 with hg | hg
          · have hg1 : guess = 1 := by omega
            subst hg1
            simp only [Nat.div_one]
            omega
          · exact le_trans hg (Nat.le_add_right _ _)
        have h22 : (2:ℕ) / 2 ≤ (guess + n / guess) / 2 := Nat.div_le_div_right key
        simpa [hnext] using h22
      -- AM-GM: n < (next + 1)^2
      have hub' : n < (next + 1) ^ 2 := by
        have hd : n < guess * (n / guess + 1) := Nat.lt_mul_div_succ n (by omega)
        have h2next : guess + n / guess ≤ 2 * next + 1 := by omega
        have hamgm : 4 * (guess * (n / guess + 1)) ≤ (guess + (n / guess + 1)) ^ 2 := by
          nlinarith [sq_nonneg (guess - (n / guess + 1)), sq_nonneg ((n / guess + 1) - guess)]
        nlinarith
      exact ih next hpos (by omega) hub'
    · rw [if_neg hlt]
      refine ⟨?_, hub⟩
      -- stopping condition gives guess ≤ n / guess, hence guess ^ 2 ≤ n
      have : guess ≤ n / guess := by omega
      have := (Nat.le_div_iff_mul_le (by omega : 0 < guess)).mp this
      nlinarith

/-- `isqrt` is the integer square root: `(isqrt n)² ≤ n < (isqrt n + 1)²`. -/
theorem isqrt_spec (n : ℕ) : (isqrt n) ^ 2 ≤ n ∧ n < (isqrt n + 1) ^ 2 := by
  unfold isqrt
  by_cases h : n ≤ 1
  · rw [if_pos h]
    interval_cases n <;> simp
  · rw [if_neg h]
    have hn : 2 ≤ n := by omega
    refine isqrt_iter_spec n (by omega) (n / 2) (n / 2) (by omega) le_rfl ?_
    have h1 : n < 2 * (n / 2 + 1) := by omega
    have h2 : 1 ≤ n / 2 := by omega
    nlinarith

/-! ## The control grid (auto_centering.py line 148)

`control_grid = np.round(np.sqrt(np.linspace(0, 100, n_grid)), 2)`. -/

/-- `np.linspace(start, stop, num)`: `num` evenly spaced points from
`start` to `stop`, endpoints included. -/
def linspace (start stop : ℚ) (num : ℕ) : List ℚ :=
  if num = 1 then [start]
  else (List.range num).map
    (fun k : ℕ => start + (stop - start) * (k : ℚ) / ((num : ℚ) - 1))

/-- The integer nearest to `100·√q` (ties to even), for `q ≥ 0`.
Writing `q = a/b` in lowest terms, `100·√q = √N / b` with
`N = 10000·a·b`; `f = ⌊√N / b⌋` is obtained from the integer square
root, and the comparison of `√N / b` with `f + 1/2` is decided exactly by
comparing `4·N` with `((2f+1)·b)²`. -/
def round2_sqrt_k (q : ℚ) : ℕ :=
  let N : ℕ := 10000 * q.num.toNat * q.den
  let D : ℕ := q.den
  let f : ℕ := isqrt (N / D ^ 2)
  let c : ℕ := ((2 * f + 1) * D) ^ 2
  if 4 * N < c then f
  else if c < 4 * N then f + 1
  else if 2 ∣ f then f else f + 1

/-- `np.round(np.sqrt(q), 2)` computed exactly for a rational `q ≥ 0`:
the nearest multiple of `1/100` to `√q`, ties to even
(`round2_sqrt_close` proves the distance bound). -/
def round2_sqrt (q : ℚ) : ℚ :=
  (round2_sqrt_k q : ℚ) / 100

/-- `round2_sqrt_k q` is within `1/2` of `√N / D = 100·√q`, stated by
integer inequalities: `(2k-1)·D ≤ 2·√N ≤ (2k+1)·D`, squared. -/
theorem round2_sqrt_k_bounds (q : ℚ) :
    4 * (10000 * q.num.toNat * q.den) ≤
      ((2 * round2_sqrt_k q + 1) * q.den) ^ 2 ∧
    (1 ≤ round2_sqrt_k q →
      ((2 * round2_sqrt_k q - 1) * q.den) ^ 2 ≤
        4 * (10000 * q.num.toNat * q.den)) := by
  set N : ℕ := 10000 * q.num.toNat * q.den with hN
  set D : ℕ := q.den with hD
  set f : ℕ := isqrt (N / D ^ 2) with hf
  have hDpos : 0 < D := q.pos
  have hspec := isqrt_spec (N / D ^ 2)
  rw [← hf] at hspec
  have hfl : f ^ 2 * D ^ 2 ≤ N := by
    calc f ^ 2 * D ^ 2 ≤ (N / D ^ 2) * D ^ 2 :=
          Nat.mul_le_mul_right _ hspec.1
      _ ≤ N := Nat.div_mul_le_self N (D ^ 2)
  have hfu : N < (f + 1) ^ 2 * D ^ 2 :=
    (Nat.div_lt_iff_lt_mul (by positivity)).mp hspec.2
  have hk : round2_sqrt_k q =
      if 4 * N < ((2 * f + 1) * D) ^ 2 then f
      else if ((2 * f + 1) * D) ^ 2 < 4 * N then f + 1
      else if 2 ∣ f then f else f + 1 := rfl
  rw [hk]
  split_ifs with h1 h2 h3
  · -- k = f, 4N < ((2f+1)D)²
    refine ⟨le_of_lt h1, fun hf1 => ?_⟩
    calc ((2 * f - 1) * D) ^ 2 ≤ (2 * f * D) ^ 2 := by
          apply Nat.pow_le_pow_left
          apply Nat.mul_le_mul_right
          omega
      _ = 4 * (f ^ 2 * D ^ 2) := by ring
      _ ≤ 4 * N := by omega
  · -- k = f + 1, ((2f+1)D)² < 4N
    constructor
    · calc 4 * N ≤ 4 * ((f + 1) ^ 2 * D ^ 2) := by omega
        _ = ((2 * f + 2) * D) ^ 2 := by ring
        _ ≤ ((2 * (f + 1) + 1) * D) ^ 2 := by
            apply Nat.pow_le_pow_left
            apply Nat.mul_le_mul_right
            omega
    · intro _
      calc ((2 * (f + 1) - 1) * D) ^ 2 = ((2 * f + 1) * D) ^ 2 := by
            have h21 : 2 * (f + 1) - 1 = 2 * f + 1 := by omega
            rw [h21]
        _ ≤ 4 * N := le_of_lt h2
  · -- tie, f even: k = f
    have heq : 4 * N = ((2 * f + 1) * D) ^ 2 := by omega
    refine ⟨le_of_eq heq, fun hf1 => ?_⟩
    calc ((2 * f - 1) * D) ^ 2 ≤ (2 * f * D) ^ 2 := by
          apply Nat.pow_le_pow_left
          apply Nat.mul_le_mul_right
          omega
      _ = 4 * (f ^ 2 * D ^ 2) := by ring
      _ ≤ 4 * N := by omega
  · -- tie, f odd: k = f + 1
    have heq : 4 * N = ((2 * f + 1) * D) ^ 2 := by omega
    constructor
    · calc 4 * N = ((2 * f + 1) * D) ^ 2 := heq
        _ ≤ ((2 * (f + 1) + 1) * D) ^ 2 := by
            apply Nat.pow_le_pow_left
            apply Nat.mul_le_mul_right
            omega
    · intro _
      calc ((2 * (f + 1) - 1) * D) ^ 2 = ((2 * f + 1) * D) ^ 2 := by
            have h21 : 2 * (f + 1) - 1 = 2 * f + 1 := by omega
            rw [h21]
        _ ≤ 4 * N := le_of_eq heq.symm

set_option maxHeartbeats 1000000 in
/-- `round2_sqrt q` is within `1/200` of the real `√q`: it is the
rounding of `√q` to two decimal places. -/
theorem round2_sqrt_close (q : ℚ) (hq : 0 ≤ q) :
    |((round2_sqrt q : ℚ) : ℝ) - Real.sqrt ((q : ℚ) : ℝ)| ≤ 1 / 200 := by
  obtain ⟨hub, hlb⟩ := round2_sqrt_k_bounds q
  set k := round2_sqrt_k q with hkdef
  set a := q.num.toNat with hadef
  set D := q.den with hDdef
  have hDpos : 0 < D := q.pos
  have hDR : (0 : ℝ) < (D : ℝ) := by exact_mod_cast hDpos
  have ha : ((a : ℕ) : ℝ) = ((q.num : ℤ) : ℝ) := by
    rw [hadef]
    exact_mod_cast congrArg (fun z : ℤ => (z : ℝ))
      (Int.toNat_of_nonneg (Rat.num_nonneg.mpr hq))
  have hqa : ((q : ℚ) : ℝ) * (D : ℝ) = (a : ℝ) := by
    rw [ha, Rat.cast_def, hDdef]
    field_simp
  have hqR : (0 : ℝ) ≤ ((q : ℚ) : ℝ) := by exact_mod_cast hq
  set X := Real.sqrt (10000 * (a : ℝ) * (D : ℝ)) with hXdef
  have hX0 : 0 ≤ X := Real.sqrt_nonneg _
  have hNnn : (0 : ℝ) ≤ 10000 * (a : ℝ) * (D : ℝ) := by positivity
  have hX2 : X ^ 2 = 10000 * (a : ℝ) * (D : ℝ) := Real.sq_sqrt hNnn
  have hsq : Real.sqrt ((q : ℚ) : ℝ) = X / (100 * D) := by
    rw [hXdef, show 10000 * (a : ℝ) * (D : ℝ) =
      (100 * (D : ℝ)) ^ 2 * ((q : ℚ) : ℝ) by rw [← hqa]; ring]
    rw [Real.sqrt_mul (by positivity), Real.sqrt_sq (by positivity)]
    field_simp
  have hubR : 2 * X ≤ (2 * (k : ℝ) + 1) * D := by
    have hR : 4 * (10000 * (a : ℝ) * (D : ℝ)) ≤ ((2 * (k : ℝ) + 1) * D) ^ 2 := by
      exact_mod_cast hub
    have h1 : (2 * X) ^ 2 ≤ ((2 * (k : ℝ) + 1) * D) ^ 2 := by nlinarith [hX2]
    calc 2 * X = Real.sqrt ((2 * X) ^ 2) := (Real.sqrt_sq (by linarith [hX0])).symm
      _ ≤ Real.sqrt (((2 * (k : ℝ) + 1) * D) ^ 2) := Real.sqrt_le_sqrt h1
      _ = (2 * (k : ℝ) + 1) * D := Real.sqrt_sq (by positivity)
  have hlbR : (2 * (k : ℝ) - 1) * D ≤ 2 * X := by
    rcases Nat.eq_zero_or_pos k with hk0 | hk1
    · rw [hk0]
      push_cast
      nlinarith [hX0, hDR]
    · have h := hlb hk1
      have hc : ((2 * k - 1 : ℕ) : ℝ) = 2 * (k : ℝ) - 1 := by
        rw [Nat.cast_sub (by omega : 1 ≤ 2 * k)]
        push_cast
        ring
      have hR : ((2 * (k : ℝ) - 1) * D) ^ 2 ≤ 4 * (10000 * (a : ℝ) * (D : ℝ)) := by
        rw [← hc]
        exact_mod_cast h
      have hpos : (0 : ℝ) ≤ (2 * (k : ℝ) - 1) * D := by
        have : (1 : ℝ) ≤ (k : ℝ) := by exact_mod_cast hk1
        nlinarith [hDR]
      have h1 : ((2 * (k : ℝ) - 1) * D) ^ 2 ≤ (2 * X) ^ 2 := by nlinarith [hX2]
      calc (2 * (k : ℝ) - 1) * D
          = Real.sqrt (((2 * (k : ℝ) - 1) * D) ^ 2) := (Real.sqrt_sq hpos).symm
        _ ≤ Real.sqrt ((2 * X) ^ 2) := Real.sqrt_le_sqrt h1
        _ = 2 * X := Real.sqrt_sq (by linarith [hX0])
  have hcast : ((round2_sqrt q : ℚ) : ℝ) = (k : ℝ) / 100 := by
    rw [round2_sqrt, ← hkdef]
    push_cast
    ring
  rw [hcast, hsq]
  have e : (k : ℝ) / 100 - X / (100 * D) =
      (2 * (k : ℝ) * D - 2 * X) / (200 * D) := by
    field_simp
    ring
  rw [e, abs_div, abs_of_pos (show (0 : ℝ) < 200 * D by positivity),
    div_le_iff (show (0 : ℝ) < 200 * D by positivity)]
  have habs : |2 * (k : ℝ) * D - 2 * X| ≤ D := by
    rw [abs_le]
    constructor
    · nlinarith [hubR]
    · nlinarith [hlbR]
  nlinarith [habs]

/-- Strict growth of `round2_sqrt`: when the real square roots are more
than `1/100` apart, the roundings to two decimals are strictly ordered. -/
theorem round2_sqrt_lt (x y : ℚ) (hx : 0 ≤ x) (hy : 0 ≤ y)
    (hgap : Real.sqrt ((x : ℚ) : ℝ) + 1 / 100 < Real.sqrt ((y : ℚ) : ℝ)) :
    round2_sqrt x < round2_sqrt y := by
  have hbx := round2_sqrt_close x hx
  have hby := round2_sqrt_close y hy
  rw [abs_le] at hbx hby
  have : ((round2_sqrt x : ℚ) : ℝ) < ((round2_sqrt y : ℚ) : ℝ) := by
    linarith [hbx.2, hby.1]
  exact_mod_cast this

/-- `control_grid` (line 148): square roots of `n_grid` evenly spaced
points over `[0, 100]`, rounded to 2 decimal places. -/
def control_grid (n_grid : ℕ) : List ℚ :=
  (linspace 0 100 n_grid).map round2_sqrt

/-! ## Strict monotonicity of the control grid

For grid sizes up to 500 the gap between the square roots of adjacent
linspace points exceeds the rounding step `1/100`, so the rounded grid is
strictly increasing by the analytic bound; grid sizes 501-517 are settled
by direct evaluation, and at 518 two adjacent entries collapse. -/

/-- Adjacent points of `linspace 0 100 (m+1)` have square roots more
than `1/100` (the rounding step) apart as long as `m·(k+1) < 250000`:
the gap is `(y-x)/(√x+√y) ≥ (100/m)/(2·√y)`, and
`(100/m)² > 4·y/10⁴ ⟺ m·(k+1) < 250000`. -/
theorem linspace_sqrt_gap (m k : ℕ) (hm1 : 1 ≤ m) (hbound : m * (k + 1) < 250000) :
    Real.sqrt (((100 * (k : ℚ) / (m : ℚ) : ℚ) : ℝ)) + 1 / 100 <
      Real.sqrt (((100 * ((k : ℚ) + 1) / (m : ℚ) : ℚ) : ℝ)) := by
  have hmR : (1 : ℝ) ≤ (m : ℝ) := by exact_mod_cast hm1
  have hm0 : (0 : ℝ) < (m : ℝ) := by linarith
  have hbR : (m : ℝ) * ((k : ℝ) + 1) ≤ 249999 := by
    have h : m * (k + 1) ≤ 249999 := by omega
    exact_mod_cast h
  set x : ℝ := ((100 * (k : ℚ) / (m : ℚ) : ℚ) : ℝ) with hxdef
  set y : ℝ := ((100 * ((k : ℚ) + 1) / (m : ℚ) : ℚ) : ℝ) with hydef
  have hxval : x = 100 * (k : ℝ) / (m : ℝ) := by rw [hxdef]; push_cast; ring
  have hyval : y = 100 * ((k : ℝ) + 1) / (m : ℝ) := by rw [hydef]; push_cast; ring
  have hx0 : 0 ≤ x := by rw [hxval]; positivity
  have hy_pos : 0 < y := by rw [hyval]; positivity
  have hxy : x < y := by
    rw [hxval, hyval]
    exact (div_lt_div_right hm0).mpr (by linarith)
  have hyx_pos : 0 < y - x := by linarith
  have hdx : (y - x) * m = 100 := by
    rw [hxval, hyval]
    field_simp
    ring
  set sx := Real.sqrt x with hsxdef
  set sy := Real.sqrt y with hsydef
  have hsx0 : 0 ≤ sx := Real.sqrt_nonneg x
  have hsy0 : 0 ≤ sy := Real.sqrt_nonneg y
  have hsy_pos : 0 < sy := Real.sqrt_pos.mpr hy_pos
  have hsx2 : sx ^ 2 = x := Real.sq_sqrt hx0
  have hsy2 : sy ^ 2 = y := Real.sq_sqrt (le_of_lt hy_pos)
  have hsxsy : sx ≤ sy := Real.sqrt_le_sqrt (le_of_lt hxy)
  -- key numeric inequality: 4·y/10⁴ < (y-x)²
  have hkey : 4 * y / 10000 < (y - x) ^ 2 := by
    rw [div_lt_iff (show (0 : ℝ) < 10000 by norm_num)]
    have hm2 : (0 : ℝ) < (m : ℝ) ^ 2 := by positivity
    rw [← mul_lt_mul_right hm2]
    have h3 : (y - x) ^ 2 * 10000 * (m : ℝ) ^ 2 = 10 ^ 8 := by
      calc (y - x) ^ 2 * 10000 * (m : ℝ) ^ 2
          = ((y - x) * m) ^ 2 * 10000 := by ring
        _ = 100 ^ 2 * 10000 := by rw [hdx]
        _ = 10 ^ 8 := by norm_num
    have h4 : 4 * y * (m : ℝ) ^ 2 = 400 * ((k : ℝ) + 1) * m := by
      have h2 : y * m = 100 * ((k : ℝ) + 1) := by
        rw [hyval]
        field_simp
      calc 4 * y * (m : ℝ) ^ 2 = 4 * (y * m) * m := by ring
        _ = 4 * (100 * ((k : ℝ) + 1)) * m := by rw [h2]
        _ = 400 * ((k : ℝ) + 1) * m := by ring
    rw [h4, h3]
    nlinarith [hbR]
  -- hence 2·sy/100 < y - x
  have h6 : 2 * sy * (1 / 100) < y - x := by
    have h5 : (2 * sy * (1 / 100)) ^ 2 < (y - x) ^ 2 := by
      have he : (2 * sy * (1 / 100)) ^ 2 = 4 * y / 10000 := by
        rw [← hsy2]
        ring
      rw [he]
      exact hkey
    nlinarith [h5, hsy0, hyx_pos]
  -- conclude: √y - √x = (y-x)/(√x+√y) > 1/100
  have hfact : (sy - sx) * (sy + sx) = y - x := by
    rw [← hsx2, ← hsy2]
    ring
  have hsum_pos : 0 < sy + sx := by linarith
  have h7 : (1 / 100) * (sy + sx) < (sy - sx) * (sy + sx) := by
    calc (1 / 100) * (sy + sx) ≤ (1 / 100) * (2 * sy) := by nlinarith [hsxsy]
      _ = 2 * sy * (1 / 100) := by ring
      _ < y - x := h6
      _ = (sy - sx) * (sy + sx) := hfact.symm
  have h8 : 1 / 100 < sy - sx :=
    lt_of_mul_lt_mul_right h7 (le_of_lt hsum_pos)
  linarith

/-- Boolean check that a list of rationals is strictly increasing
(adjacent pairs). -/
def chainLtB : List ℚ → Bool
  | [] => true
  | [_] => true
  | a :: b :: rest => decide (a < b) && chainLtB (b :: rest)

theorem chainLtB_iff : ∀ l : List ℚ, chainLtB l = true ↔ l.Chain' (· < ·)
  | [] => by simp [chainLtB]
  | [a] => by simp [chainLtB]
  | a :: b :: rest => by
    rw [show chainLtB (a :: b :: rest) = (decide (a < b) && chainLtB (b :: rest))
      from rfl]
    rw [Bool.and_eq_true, decide_eq_true_iff, List.chain'_cons,
      chainLtB_iff (b :: rest)]

theorem control_grid_length (n : ℕ) (h2 : 2 ≤ n) : (control_grid n).length = n := by
  unfold control_grid linspace
  rw [if_neg (by omega : ¬ n = 1)]
  simp

/-- Analytic case: for `2 ≤ n ≤ 500` the grid is strictly increasing
because adjacent square roots are more than the rounding step apart. -/
theorem control_grid_chain_le_500 (n : ℕ) (h2 : 2 ≤ n) (h5 : n ≤ 500) :
    (control_grid n).Chain' (· < ·) := by
  obtain ⟨m, rfl⟩ : ∃ m, n = m + 1 := ⟨n - 1, by omega⟩
  have hm1 : 1 ≤ m := by omega
  have hm : m ≤ 499 := by omega
  unfold control_grid linspace
  rw [if_neg (by omega : ¬ m + 1 = 1), List.map_map]
  rw [List.chain'_map, List.chain'_range_succ]
  intro k hk
  simp only [Function.comp]
  have he : ∀ j : ℕ, (0 + (100 - 0) * (j : ℚ) / (((m + 1 : ℕ) : ℚ) - 1)) =
      100 * (j : ℚ) / (m : ℚ) := by
    intro j
    push_cast
    ring
  have hcast : ((k + 1 : ℕ) : ℚ) = (k : ℚ) + 1 := by push_cast; ring
  rw [he k, he (k + 1), hcast]
  apply round2_sqrt_lt
  · positivity
  · positivity
  · apply linspace_sqrt_gap m k hm1
    have hb := Nat.mul_le_mul hm (show k + 1 ≤ 499 by omega)
    omega

/-- The tail (indices 483 and up) of the grid with `n = m + 1` points:
exactly the part the analytic gap bound does not cover for
`500 ≤ m ≤ 516`. -/
def grid_tail_ok (m : ℕ) : Bool :=
  chainLtB ((List.range (m - 482)).map
    (fun i : ℕ => round2_sqrt (100 * ((483 + i : ℕ) : ℚ) / (m : ℚ))))

set_option maxRecDepth 4000 in
set_option maxHeartbeats 4000000 in
/-- Computational case: the grid tails for `m = 500..516` are strictly
increasing (settled by evaluation). -/
theorem grid_tail_ok_500_516 :
    ((List.range 17).all (fun j => grid_tail_ok (500 + j))) = true := by
  with_unfolding_all rfl

theorem grid_tail_pair (m : ℕ) (h5 : 500 ≤ m) (h6 : m ≤ 516) (k : ℕ)
    (hk1 : 483 ≤ k) (hk : k < m) :
    round2_sqrt (100 * (k : ℚ) / (m : ℚ)) <
      round2_sqrt (100 * ((k : ℚ) + 1) / (m : ℚ)) := by
  have hall := grid_tail_ok_500_516
  rw [List.all_eq_true] at hall
  have hj := hall (m - 500) (List.mem_range.mpr (by omega))
  simp only [] at hj
  rw [show 500 + (m - 500) = m by omega] at hj
  unfold grid_tail_ok at hj
  rw [chainLtB_iff] at hj
  rw [show m - 482 = (m - 483) + 1 by omega] at hj
  rw [List.chain'_map, List.chain'_range_succ] at hj
  have hpair := hj (k - 483) (by omega)
  rw [show 483 + (k - 483) = k by omega,
    show 483 + (k - 483 + 1) = k + 1 by omega] at hpair
  have hcast : ((k + 1 : ℕ) : ℚ) = (k : ℚ) + 1 := by push_cast; ring
  rw [hcast] at hpair
  exact hpair

theorem control_grid_chain_of_501 (n : ℕ) (h1 : 501 ≤ n) (h2 : n ≤ 517) :
    (control_grid n).Chain' (· < ·) := by
  obtain ⟨m, rfl⟩ : ∃ m, n = m + 1 := ⟨n - 1, by omega⟩
  have hm1 : 1 ≤ m := by omega
  unfold control_grid linspace
  rw [if_neg (by omega : ¬ m + 1 = 1), List.map_map]
  rw [List.chain'_map, List.chain'_range_succ]
  intro k hk
  simp only [Function.comp]
  have he : ∀ j : ℕ, (0 + (100 - 0) * (j : ℚ) / (((m + 1 : ℕ) : ℚ) - 1)) =
      100 * (j : ℚ) / (m : ℚ) := by
    intro j
    push_cast
    ring
  have hcast : ((k + 1 : ℕ) : ℚ) = (k : ℚ) + 1 := by push_cast; ring
  rw [he k, he (k + 1), hcast]
  rcases le_or_lt (k + 1) 483 with hsmall | hlarge
  · apply round2_sqrt_lt
    · positivity
    · positivity
    · apply linspace_sqrt_gap m k hm1
      have hb := Nat.mul_le_mul (show m ≤ 516 by omega) hsmall
      omega
  · exact grid_tail_pair m (by omega) (by omega) k (by omega) hk

theorem chain'_lt_nodup {l : List ℚ} (h : l.Chain' (· < ·)) : l.Nodup :=
  (List.chain'_iff_pairwise.mp h).imp ne_of_lt

/-- Each grid entry is the rounded square root of the corresponding
linspace point. -/
theorem control_grid_getD_eq (n k : ℕ) (h2 : 2 ≤ n) (hk : k < n) :
    (control_grid n).getD k 0 =
      round2_sqrt (0 + (100 - 0) * (k : ℚ) / ((n : ℚ) - 1)) := by
  unfold control_grid linspace
  rw [if_neg (by omega : ¬ n = 1), List.map_map]
  rw [List.getD_eq_get _ 0 (by simpa using hk)]
  rw [List.get_eq_getElem]
  simp only [List.getElem_map, List.getElem_range, Function.comp]

/-! ## Grid quantization (auto_centering.py lines 179-197) -/

/-- `i_closest = np.argmin(np.abs(control_grid - control))` (line 180):
index of the first grid entry at minimal absolute distance from
`control` (`np.argmin` returns the first occurrence of the minimum). -/
def i_closest (control : ℚ) : List ℚ → ℕ
  | [] => 0
  | g :: gs =>
    if gs = [] then 0
    else if |g - control| ≤ |gs.getD (i_closest control gs) 0 - control| then 0
    else i_closest control gs + 1

/-- The increase walk (lines 188-190):
`while (i < len(grid)-1) and (grid[i] <= control): i += 1`.
Structural recursion on explicit fuel; `walk_up` supplies fuel
`grid.length`, which is more than the loop can ever take. -/
def walk_up_fuel (grid : List ℚ) (control : ℚ) : ℕ → ℕ → ℕ
  | 0, i => i
  | fuel + 1, i =>
    if i < grid.length - 1 ∧ grid.getD i 0 ≤ control then
      walk_up_fuel grid control fuel (i + 1)
    else i

/-- The increase while-loop of lines 188-190 started at index `i`. -/
def walk_up (grid : List ℚ) (control : ℚ) (i : ℕ) : ℕ :=
  walk_up_fuel grid control grid.length i

/-- The decrease walk (lines 194-196):
`while (i > 0) and (grid[i] >= control): i -= 1`. -/
def walk_down (grid : List ℚ) (control : ℚ) : ℕ → ℕ
  | 0 => 0
  | i + 1 =>
    if control ≤ grid.getD (i + 1) 0 then walk_down grid control i else i + 1

/-- `control_next` (lines 183-197): the quantized next actuator command.
`none` (Hold) keeps `control` unchanged; `some true` (Increase) walks up
from `i_closest`; `some false` (Decrease) walks down from `i_closest`. -/
def control_next (grid : List ℚ) (control : ℚ) : Option Bool → ℚ
  | none => control
  | some true => grid.getD (walk_up grid control (i_closest control grid)) 0
  | some false => grid.getD (walk_down grid control (i_closest control grid)) 0

/-! ## Properties of `i_closest`, `walk_up`, `walk_down` -/

theorem i_closest_lt_length (v : ℚ) (l : List ℚ) (hne : l ≠ []) :
    i_closest v l < l.length := by
  induction l with
  | nil => exact absurd rfl hne
  | cons g gs ih =>
    show (if gs = [] then 0
      else if |g - v| ≤ |gs.getD (i_closest v gs) 0 - v| then 0
      else i_closest v gs + 1) < (g :: gs).length
    by_cases hgs : gs = []
    · simp [hgs]
    · rw [if_neg hgs]
      by_cases hle : |g - v| ≤ |gs.getD (i_closest v gs) 0 - v|
      · rw [if_pos hle]; simp
      · rw [if_neg hle]
        simpa using ih hgs

theorem i_closest_min (v : ℚ) (l : List ℚ) :
    ∀ j < l.length, |l.getD (i_closest v l) 0 - v| ≤ |l.getD j 0 - v| := by
  induction l with
  | nil => intro j hj; simp at hj
  | cons g gs ih =>
    intro j hj
    show |(g :: gs).getD (if gs = [] then 0
      else if |g - v| ≤ |gs.getD (i_closest v gs) 0 - v| then 0
      else i_closest v gs + 1) 0 - v| ≤ |(g :: gs).getD j 0 - v|
    by_cases hgs : gs = []
    · subst hgs
      have hj0 : j = 0 := by simpa using hj
      subst hj0
      simp
    · rw [if_neg hgs]
      by_cases hle : |g - v| ≤ |gs.getD (i_closest v gs) 0 - v|
      · rw [if_pos hle]
        match j with
        | 0 => simp
        | j' + 1 =>
          simp only [List.getD_cons_zero, List.getD_cons_succ]
          exact le_trans hle (ih j' (by simpa using hj))
      · rw [if_neg hle]
        match j with
        | 0 =>
          simp only [List.getD_cons_zero, List.getD_cons_succ]
          exact le_of_lt (lt_of_not_le hle)
        | j' + 1 =>
          simp only [List.getD_cons_succ]
          exact ih j' (by simpa using hj)

theorem walk_up_fuel_zero (grid : List ℚ) (v : ℚ) (i : ℕ) :
    walk_up_fuel grid v 0 i = i := rfl

theorem walk_up_fuel_succ (grid : List ℚ) (v : ℚ) (fuel i : ℕ) :
    walk_up_fuel grid v (fuel + 1) i =
      if i < grid.length - 1 ∧ grid.getD i 0 ≤ v then
        walk_up_fuel grid v fuel (i + 1)
      else i := rfl

theorem walk_down_succ (grid : List ℚ) (v : ℚ) (i : ℕ) :
    walk_down grid v (i + 1) =
      if v ≤ grid.getD (i + 1) 0 then walk_down grid v i else i + 1 := rfl

theorem walk_up_fuel_ge (grid : List ℚ) (v : ℚ) :
    ∀ fuel i, i ≤ walk_up_fuel grid v fuel i := by
  intro fuel
  induction fuel with
  | zero => intro i; exact le_refl i
  | succ fuel ih =>
    intro i
    show i ≤ (if i < grid.length - 1 ∧ grid.getD i 0 ≤ v then
      walk_up_fuel grid v fuel (i + 1) else i)
    by_cases h : i < grid.length - 1 ∧ grid.getD i 0 ≤ v
    · rw [if_pos h]; exact le_trans (Nat.le_succ i) (ih (i + 1))
    · rw [if_neg h]

theorem walk_up_fuel_le (grid : List ℚ) (v : ℚ) :
    ∀ fuel i, i ≤ grid.length - 1 → walk_up_fuel grid v fuel i ≤ grid.length - 1 := by
  intro fuel
  induction fuel with
  | zero => intro i h; exact h
  | succ fuel ih =>
    intro i h
    show (if i < grid.length - 1 ∧ grid.getD i 0 ≤ v then
      walk_up_fuel grid v fuel (i + 1) else i) ≤ grid.length - 1
    by_cases hc : i < grid.length - 1 ∧ grid.getD i 0 ≤ v
    · rw [if_pos hc]; exact ih (i + 1) (by omega)
    · rw [if_neg hc]; exact h

theorem walk_up_fuel_invariant (grid : List ℚ) (v : ℚ) :
    ∀ fuel i j, i ≤ j → j < walk_up_fuel grid v fuel i → grid.getD j 0 ≤ v := by
  intro fuel
  induction fuel with
  | zero =>
    intro i j hij hj
    rw [walk_up_fuel_zero] at hj
    omega
  | succ fuel ih =>
    intro i j hij hj
    rw [walk_up_fuel_succ] at hj
    by_cases hc : i < grid.length - 1 ∧ grid.getD i 0 ≤ v
    · rw [if_pos hc] at hj
      rcases Nat.eq_or_lt_of_le hij with heq | hlt
      · exact heq ▸ hc.2
      · exact ih (i + 1) j hlt hj
    · rw [if_neg hc] at hj
      omega

theorem walk_up_fuel_post (grid : List ℚ) (v : ℚ) :
    ∀ fuel i, grid.length - 1 - i ≤ fuel →
      ¬(walk_up_fuel grid v fuel i < grid.length - 1 ∧
        grid.getD (walk_up_fuel grid v fuel i) 0 ≤ v) := by
  intro fuel
  induction fuel with
  | zero =>
    intro i h
    show ¬(i < grid.length - 1 ∧ _)
    omega
  | succ fuel ih =>
    intro i h
    rw [walk_up_fuel_succ]
    by_cases hc : i < grid.length - 1 ∧ grid.getD i 0 ≤ v
    · rw [if_pos hc]
      exact ih (i + 1) (by omega)
    · rw [if_neg hc]
      exact hc

theorem walk_down_le (grid : List ℚ) (v : ℚ) : ∀ i, walk_down grid v i ≤ i := by
  intro i
  induction i with
  | zero => exact le_refl 0
  | succ i ih =>
    show (if v ≤ grid.getD (i + 1) 0 then walk_down grid v i else i + 1) ≤ i + 1
    by_cases hc : v ≤ grid.getD (i + 1) 0
    · rw [if_pos hc]; omega
    · rw [if_neg hc]

theorem walk_down_invariant (grid : List ℚ) (v : ℚ) :
    ∀ i j, walk_down grid v i < j → j ≤ i → v ≤ grid.getD j 0 := by
  intro i
  induction i with
  | zero =>
    intro j h1 h2
    simp only [walk_down] at h1
    omega
  | succ i ih =>
    intro j h1 h2
    rw [walk_down_succ] at h1
    by_cases hc : v ≤ grid.getD (i + 1) 0
    · rw [if_pos hc] at h1
      rcases Nat.eq_or_lt_of_le h2 with heq | hlt
      · exact heq ▸ hc
      · exact ih j h1 (by omega)
    · rw [if_neg hc] at h1
      omega

theorem walk_down_post (grid : List ℚ) (v : ℚ) :
    ∀ i, walk_down grid v i = 0 ∨ grid.getD (walk_down grid v i) 0 < v := by
  intro i
  induction i with
  | zero => exact Or.inl rfl
  | succ i ih =>
    rw [walk_down_succ]
    by_cases hc : v ≤ grid.getD (i + 1) 0
    · rw [if_pos hc]
      exact ih
    · rw [if_neg hc]
      exact Or.inr (lt_of_not_le hc)

/-! ## Sorted-list access helpers -/

theorem sorted_getD_lt {l : List ℚ} (hs : l.Sorted (· < ·)) {i j : ℕ}
    (hij : i < j) (hj : j < l.length) : l.getD i 0 < l.getD j 0 := by
  rw [List.getD_eq_get l 0 (lt_trans hij hj), List.getD_eq_get l 0 hj]
  exact List.Sorted.rel_get_of_lt hs hij

theorem sorted_getD_le {l : List ℚ} (hs : l.Sorted (· < ·)) {i j : ℕ}
    (hij : i ≤ j) (hj : j < l.length) : l.getD i 0 ≤ l.getD j 0 := by
  rcases Nat.eq_or_lt_of_le hij with heq | hlt
  · exact heq ▸ le_refl _
  · exact le_of_lt (sorted_getD_lt hs hlt hj)

theorem getD_mem {l : List ℚ} {i : ℕ} (h : i < l.length) : l.getD i 0 ∈ l := by
  rw [List.getD_eq_get l 0 h]
  exact List.get_mem l i h

theorem mem_getD {l : List ℚ} {g : ℚ} (h : g ∈ l) :
    ∃ k, k < l.length ∧ l.getD k 0 = g := by
  obtain ⟨⟨k, hk⟩, hg⟩ := List.mem_iff_get.mp h
  exact ⟨k, hk, by rw [List.getD_eq_get l 0 hk]; exact hg⟩

/-! ## Quantizer characterization -/

/-- The Increase branch of `control_next` on a nonempty strictly
increasing grid: the result is a grid element; if some grid element
exceeds `control` the result is the least such element; otherwise the
result is the last (largest) grid element. -/
theorem control_next_up_spec (grid : List ℚ) (v : ℚ) (hne : grid ≠ [])
    (hs : grid.Sorted (· < ·)) :
    control_next grid v (some true) ∈ grid ∧
    ((∃ g ∈ grid, v < g) →
      v < control_next grid v (some true) ∧
      ∀ g ∈ grid, v < g → control_next grid v (some true) ≤ g) ∧
    ((∀ g ∈ grid, g ≤ v) → control_next grid v (some true) = grid.getLast hne) := by
  have hlen : 0 < grid.length := List.length_pos.mpr hne
  set i0 := i_closest v grid with hi0
  have hi0lt : i0 < grid.length := i_closest_lt_length v grid hne
  have hge : i0 ≤ walk_up_fuel grid v grid.length i0 :=
    walk_up_fuel_ge grid v grid.length i0
  have hle : walk_up_fuel grid v grid.length i0 ≤ grid.length - 1 :=
    walk_up_fuel_le grid v grid.length i0 (by omega)
  have hpost := walk_up_fuel_post grid v grid.length i0 (by omega)
  have hinv := walk_up_fuel_invariant grid v grid.length i0
  set r := walk_up_fuel grid v grid.length i0 with hr
  have hrlt : r < grid.length := by omega
  have hresult : control_next grid v (some true) = grid.getD r 0 := rfl
  refine ⟨hresult ▸ getD_mem hrlt, fun hex => ?_, fun hall => ?_⟩
  · obtain ⟨g, hg, hvg⟩ := hex
    obtain ⟨k, hk, hgk⟩ := mem_getD hg
    have hvr : v < grid.getD r 0 := by
      by_contra hcon
      push_neg at hcon
      have hrl : r = grid.length - 1 := by
        rcases Nat.eq_or_lt_of_le hle with heq | hlt
        · exact heq
        · exact absurd ⟨hlt, hcon⟩ hpost
      have : grid.getD k 0 ≤ grid.getD r 0 := sorted_getD_le hs (by omega) hrlt
      rw [hgk] at this
      exact absurd (lt_of_lt_of_le hvg this) (not_lt.mpr hcon)
    refine ⟨hresult ▸ hvr, fun g' hg' hvg' => ?_⟩
    obtain ⟨k', hk', hgk'⟩ := mem_getD hg'
    rw [hresult, ← hgk']
    rcases Nat.lt_or_ge k' r with hlt | hge'
    · exfalso
      rcases Nat.lt_or_ge k' i0 with hlt0 | hge0
      · -- an element above v strictly left of the argmin contradicts minimality
        have hmono : grid.getD k' 0 < grid.getD i0 0 := sorted_getD_lt hs hlt0 hi0lt
        have hmin := i_closest_min v grid k' (by omega)
        rw [← hi0] at hmin
        rw [abs_of_pos (by linarith), abs_of_pos (by linarith)] at hmin
        linarith
      · -- an element in the walked-over range is ≤ v
        have := hinv k' hge0 hlt
        rw [hgk'] at this
        linarith
    · exact sorted_getD_le hs hge' hk'
  · have hrl : r = grid.length - 1 := by
      have hrv : grid.getD r 0 ≤ v := hall _ (getD_mem hrlt)
      rcases Nat.eq_or_lt_of_le hle with heq | hlt
      · exact heq
      · exact absurd ⟨hlt, hrv⟩ hpost
    rw [hresult, hrl, List.getLast_eq_get grid hne,
      List.getD_eq_get grid 0 (by omega)]

/-- The Decrease branch of `control_next` on a nonempty strictly
increasing grid: the result is a grid element; if some grid element is
below `control` the result is the greatest such element; otherwise the
result is the head (smallest) grid element. -/
theorem control_next_down_spec (grid : List ℚ) (v : ℚ) (hne : grid ≠ [])
    (hs : grid.Sorted (· < ·)) :
    control_next grid v (some false) ∈ grid ∧
    ((∃ g ∈ grid, g < v) →
      control_next grid v (some false) < v ∧
      ∀ g ∈ grid, g < v → g ≤ control_next grid v (some false)) ∧
    ((∀ g ∈ grid, v ≤ g) → control_next grid v (some false) = grid.head hne) := by
  have hlen : 0 < grid.length := List.length_pos.mpr hne
  set i0 := i_closest v grid with hi0
  have hi0lt : i0 < grid.length := i_closest_lt_length v grid hne
  have hle : walk_down grid v i0 ≤ i0 := walk_down_le grid v i0
  have hpost := walk_down_post grid v i0
  have hinv := walk_down_invariant grid v i0
  set r := walk_down grid v i0 with hr
  have hrlt : r < grid.length := by omega
  have hresult : control_next grid v (some false) = grid.getD r 0 := rfl
  refine ⟨hresult ▸ getD_mem hrlt, fun hex => ?_, fun hall => ?_⟩
  · obtain ⟨g, hg, hvg⟩ := hex
    obtain ⟨k, hk, hgk⟩ := mem_getD hg
    have hvr : grid.getD r 0 < v := by
      rcases hpost with h0 | hlt
      · -- r = 0: the head must be below v since some element is
        rw [h0]
        have : grid.getD 0 0 ≤ grid.getD k 0 := sorted_getD_le hs (Nat.zero_le k) hk
        rw [hgk] at this
        linarith
      · exact hlt
    refine ⟨hresult ▸ hvr, fun g' hg' hvg' => ?_⟩
    obtain ⟨k', hk', hgk'⟩ := mem_getD hg'
    rw [hresult, ← hgk']
    rcases Nat.lt_or_ge r k' with hlt | hge'
    · exfalso
      rcases le_or_lt k' i0 with hle0 | hgt0
      · -- an element in the walked-over range is ≥ v
        have := hinv k' hlt hle0
        rw [hgk'] at this
        linarith
      · -- an element below v strictly right of the argmin contradicts minimality
        have hmono : grid.getD i0 0 < grid.getD k' 0 := sorted_getD_lt hs hgt0 hk'
        have hmin := i_closest_min v grid k' hk'
        rw [← hi0] at hmin
        have h1 : grid.getD k' 0 - v < 0 := by rw [hgk']; linarith
        have h2 : grid.getD i0 0 - v < 0 := by linarith
        rw [abs_of_neg h2, abs_of_neg h1] at hmin
        rw [hgk'] at hmin hmono
        linarith
    · exact sorted_getD_le hs hge' hrlt
  · have hr0 : r = 0 := by
      rcases hpost with h0 | hlt
      · exact h0
      · exact absurd hlt (not_lt.mpr (hall _ (getD_mem hrlt)))
    rw [hresult, hr0]
    cases grid with
    | nil => exact absurd rfl hne
    | cons a l => rfl

theorem sorted_le_getLast {grid : List ℚ} (hs : grid.Sorted (· < ·)) (hne : grid ≠ [])
    {g : ℚ} (hg : g ∈ grid) : g ≤ grid.getLast hne := by
  obtain ⟨k, hk, hgk⟩ := mem_getD hg
  have hlen : 0 < grid.length := List.length_pos.mpr hne
  rw [List.getLast_eq_get grid hne, ← List.getD_eq_get grid 0 (by omega), ← hgk]
  exact sorted_getD_le hs (by omega) (by omega)

theorem sorted_head_le {grid : List ℚ} (hs : grid.Sorted (· < ·)) (hne : grid ≠ [])
    {g : ℚ} (hg : g ∈ grid) : grid.head hne ≤ g := by
  obtain ⟨k, hk, hgk⟩ := mem_getD hg
  have h0 : grid.head hne = grid.getD 0 0 := by
    cases grid with
    | nil => exact absurd rfl hne
    | cons a l => rfl
  rw [h0, ← hgk]
  exact sorted_getD_le hs (Nat.zero_le k) hk

/-! ## One control cycle with its channel effects
(auto_centering.py lines 137-204)

`brs_control` reads the drift channel and the temperature-control channel
through `ezca`, decides, quantizes, and writes the control channel only
when the quantized value differs from the (rounded) read value.  The
hardware boundary is abstracted: `drift_ok` / `control_ok` say whether the
two `ezca.read` calls succeed (a failed read raises, which aborts the
cycle before any write — there is no exception handler in `brs_control`),
`drift_raw` is the value returned by the drift read, and `channel` is the
current value stored in the temperature-control channel (returned by the
control read when it succeeds).  The result records the channel's value
after the cycle and whether `ezca.write` was called. -/

structure CycleResult where
  channel : ℚ
  wrote : Bool
deriving DecidableEq

/-- One iteration of `brs_control` (lines 137-204): read drift and
control (rounding both with `np.round(·, 2)`), compute the control grid,
decide the direction, quantize, and write back `control_next` iff it
differs from the rounded `control`. -/
def brs_control (control_negated : Bool) (threshold_lower threshold_upper : ℚ)
    (n_grid : ℕ) (drift_ok control_ok : Bool) (drift_raw channel : ℚ) : CycleResult :=
  if drift_ok && control_ok then
    let drift := round2 drift_raw
    let control := round2 channel
    let grid := control_grid n_grid
    let inc := increase_temperature drift threshold_lower threshold_upper control_negated
    let next := control_next grid control inc
    if control ≠ next then ⟨next, true⟩ else ⟨channel, false⟩
  else ⟨channel, false⟩

/-! ## The scheduling loop (auto_centering.py lines 77-109)

`schedule_run` wraps `while 1: if now > time_next: func(...)` in
`try: ... except KeyboardInterrupt`.  Only `KeyboardInterrupt` is caught
(logged, clean exit); any other exception raised by `func` — e.g. a
hardware I/O error from the `ezca` reads inside `brs_control` — escapes
the loop and aborts `schedule_run`.  The model abstracts the wall-clock
bookkeeping: the list holds the successive events the loop observes, each
either a scheduled `func` invocation (returning normally or raising a
hardware error) or a keyboard interrupt arriving during the wait; the
counter tallies `func` invocations. -/

inductive TickOutcome where
  | success            -- `func(**kwargs)` returns normally
  | hw_error           -- `func(**kwargs)` raises a hardware I/O error
  | keyboard_interrupt -- KeyboardInterrupt arrives
deriving DecidableEq

inductive RunEnd where
  | still_running (executed : ℕ) -- event list exhausted, loop would continue
  | crashed (executed : ℕ)       -- uncaught exception escaped the try block
  | stopped (executed : ℕ)       -- KeyboardInterrupt caught: logged, clean exit
deriving DecidableEq

/-- The scheduling loop of `schedule_run` (lines 99-109). -/
def schedule_run : List TickOutcome → ℕ → RunEnd
  | [], executed => .still_running executed
  | .success :: rest, executed => schedule_run rest (executed + 1)
  | .hw_error :: _, executed => .crashed (executed + 1)
  | .keyboard_interrupt :: _, executed => .stopped executed

/-! ## Command-line entry point (auto_centering.py lines 13-17, 20-34, 207-225) -/

/-- How an invocation of the `__main__` block ends, as far as the claims
are concerned. -/
inductive MainOutcome where
  | sample_config_written -- `generate_sample_config()` ran, then `exit()`
  | runs_control_loop     -- config parsed; proceeds to `schedule_run`
  | type_error_crash      -- `os.path.splitext(None)` raises an uncaught TypeError
  | usage_error           -- argparse rejected the command line (never produced here)
deriving DecidableEq

/-- The `__main__` dispatch (lines 208-225).  `--config` is optional in
the argparse parser (lines 13-17), so omitting it yields
`opts.config = None`.  With `--get-config` the sample config is written
and the program exits.  Otherwise, with a config path the program reads
the config and proceeds to `schedule_run`; with `config_path = None` the
guard `if config_path is not None` merely skips the config read, and the
next line `os.path.splitext(config_path)` raises an uncaught `TypeError`
on `None` — argparse never reports a usage error for this input. -/
def main_block (config_path : Option String) (get_config : Bool) : MainOutcome :=
  if get_config then MainOutcome.sample_config_written
  else
    match config_path with
    | some _ => MainOutcome.runs_control_loop
    | none => MainOutcome.type_error_crash

/-- The key/value payload written by `generate_sample_config`
(lines 20-34), with each value as the Python literal in the source dict. -/
structure SampleConfig where
  optics : String
  control_negated : Bool
  threshold_lower : ℤ
  threshold_upper : ℤ
  start_now : Bool
  interval_hour : String
  n_grid : String

/-- `generate_sample_config` (lines 20-34): the `"Default"` section it
writes to `brs_control_sample.ini`. -/
def generate_sample_config : SampleConfig :=
  { optics := "ITMX"
    control_negated := false
    threshold_lower := 8192
    threshold_upper := -8192
    start_now := false
    interval_hour := "12"
    n_grid := "64" }

end BrsAutoCentering

namespace BrsAutoCentering

/-! ## Claim theorems (first batch) -/

/-- **C1.** Threshold decision: if the measurement exceeds
`threshold_upper` the direction is Increase (`some true`) exactly when
`control_negated`, else Decrease (`some false`); otherwise if it is below
`threshold_lower` the direction is Decrease exactly when
`control_negated`, else Increase; otherwise — including measurements
exactly equal to either threshold — the direction is Hold (`none`). -/
theorem c1_threshold_decision (m lo hi : ℚ) (neg : Bool) :
    (hi < m → increase_temperature m lo hi neg = some neg) ∧
    (m ≤ hi → m < lo → increase_temperature m lo hi neg = some (!neg)) ∧
    (lo ≤ m → m ≤ hi → increase_temperature m lo hi neg = none) := by
  refine ⟨fun h => ?_, fun h h' => ?_, fun h h' => ?_⟩
  · simp [increase_temperature, h]
  · simp [increase_temperature, not_lt.mpr h, h']
  · simp [increase_temperature, not_lt.mpr h, not_lt.mpr h']

/-- Witness for C1, the claim's own scenario: `thresholdLower = -8192`,
`thresholdUpper = 8192`, `controlNegated = false`, `m = 9000` gives
direction Decrease (`some false`). -/
theorem c1_threshold_decision_witness :
    increase_temperature 9000 (-8192) 8192 false = some false :=
  (c1_threshold_decision 9000 (-8192) 8192 false).1 (by norm_num)

/-- **C3.** Quantizing with direction Hold (`none`) returns the current
value unchanged for every grid, so repeated Hold quantization is the
identity. -/
theorem c3_hold_identity (grid : List ℚ) (v : ℚ) :
    control_next grid v none = v ∧
    control_next grid (control_next grid v none) none = v := by
  exact ⟨rfl, rfl⟩

/-- **C2.** On a nonempty strictly increasing grid: quantizing with
direction Increase returns the last (largest) grid value when
`v ≥ max(grid)`, and otherwise a grid element strictly greater than `v`
that is the smallest grid element strictly greater than `v`; symmetric
statement for Decrease with the head (smallest) grid value. -/
theorem c2_quantize_monotone (grid : List ℚ) (v : ℚ) (hne : grid ≠ [])
    (hs : grid.Sorted (· < ·)) :
    (grid.getLast hne ≤ v → control_next grid v (some true) = grid.getLast hne) ∧
    (v < grid.getLast hne →
      v < control_next grid v (some true) ∧
      control_next grid v (some true) ∈ grid ∧
      ∀ g ∈ grid, v < g → control_next grid v (some true) ≤ g) ∧
    (v ≤ grid.head hne → control_next grid v (some false) = grid.head hne) ∧
    (grid.head hne < v →
      control_next grid v (some false) < v ∧
      control_next grid v (some false) ∈ grid ∧
      ∀ g ∈ grid, g < v → g ≤ control_next grid v (some false)) := by
  obtain ⟨humem, hup, hutop⟩ := control_next_up_spec grid v hne hs
  obtain ⟨hdmem, hdn, hdbot⟩ := control_next_down_spec grid v hne hs
  refine ⟨fun h => ?_, fun h => ?_, fun h => ?_, fun h => ?_⟩
  · exact hutop (fun g hg => le_trans (sorted_le_getLast hs hne hg) h)
  · obtain ⟨h1, h2⟩ := hup ⟨grid.getLast hne, List.getLast_mem hne, h⟩
    exact ⟨h1, humem, h2⟩
  · exact hdbot (fun g hg => le_trans h (sorted_head_le hs hne hg))
  · obtain ⟨h1, h2⟩ := hdn ⟨grid.head hne, List.head_mem hne, h⟩
    exact ⟨h1, hdmem, h2⟩

/-- Witness for C2 at the concrete grid `[0, 1]`: from `v = 2 ≥ max` the
Increase quantization clamps to the maximum, and from `v = 1/2 < max` it
moves strictly up. -/
theorem c2_quantize_monotone_witness :
    control_next [(0:ℚ), 1] 2 (some true) = 1 ∧
    (1/2 : ℚ) < control_next [(0:ℚ), 1] (1/2) (some true) := by
  constructor
  · have h := (c2_quantize_monotone [(0:ℚ), 1] 2 (by simp)
      (by simp [List.sorted_cons])).1 (by norm_num [List.getLast])
    simpa [List.getLast] using h
  · exact ((c2_quantize_monotone [(0:ℚ), 1] (1/2) (by simp)
      (by simp [List.sorted_cons])).2.1 (by norm_num [List.getLast])).1

/-- **C4.** On a nonempty strictly increasing grid, if `v` is not itself
a grid point then quantizing `v` with Increase and the result with
Decrease never returns `v` (the round trip always lands on a grid
point). -/
theorem c4_no_oscillation (grid : List ℚ) (v : ℚ) (hne : grid ≠ [])
    (hs : grid.Sorted (· < ·)) (hv : v ∉ grid) :
    control_next grid (control_next grid v (some true)) (some false) ≠ v := by
  intro heq
  have hmem := (control_next_down_spec grid (control_next grid v (some true)) hne hs).1
  rw [heq] at hmem
  exact hv hmem

/-- Witness for C4: on the grid `[0, 1]` with the non-grid value
`v = 1/2`, Increase followed by Decrease does not return `1/2`. -/
theorem c4_no_oscillation_witness :
    control_next [(0:ℚ), 1] (control_next [(0:ℚ), 1] (1/2) (some true)) (some false)
      ≠ 1/2 :=
  c4_no_oscillation [(0:ℚ), 1] (1/2) (by simp) (by simp [List.sorted_cons])
    (by norm_num)

set_option maxRecDepth 10000 in
/-- **C5 — counterexample.** The claim quantifies over every
`gridSize ≥ 2`, but at `gridSize = 518` the grid is not a sequence of
distinct, strictly increasing values: entries 494 and 495 both round to
`9.78` (the exact square roots `√(100·494/517)` ≈ 9.77503 and
`√(100·495/517)` ≈ 9.78492 both round to two decimals as 9.78). -/
theorem c5_counterexample :
    (control_grid 518).getD 494 0 = 489 / 50 ∧
    (control_grid 518).getD 495 0 = 489 / 50 ∧
    ¬ ((control_grid 518).Nodup ∧ (control_grid 518).Chain' (· < ·)) := by
  have h494 : (control_grid 518).getD 494 0 = 489 / 50 := by
    rw [control_grid_getD_eq 518 494 (by norm_num) (by norm_num)]
    with_unfolding_all rfl
  have h495 : (control_grid 518).getD 495 0 = 489 / 50 := by
    rw [control_grid_getD_eq 518 495 (by norm_num) (by norm_num)]
    with_unfolding_all rfl
  refine ⟨h494, h495, fun h => ?_⟩
  have hs : (control_grid 518).Sorted (· < ·) := List.chain'_iff_pairwise.mp h.2
  have hlt : (control_grid 518).getD 494 0 < (control_grid 518).getD 495 0 :=
    sorted_getD_lt hs (by norm_num)
      (by rw [control_grid_length 518 (by norm_num)]; norm_num)
  rw [h494, h495] at hlt
  exact lt_irrefl _ hlt

/-- **C5 — amended.** For every gridSize `n` with `2 ≤ n ≤ 517` (in
particular every size up to and beyond the shipped default 64), the
control grid of `n` square-root-spaced points over `[0,100]` rounded to
2 decimals is a sequence of `n` distinct, strictly increasing values;
the first failure is at `n = 518`. -/
theorem c5_amended_grid_strictly_increasing (n : ℕ) (h2 : 2 ≤ n) (h5 : n ≤ 517) :
    (control_grid n).length = n ∧ (control_grid n).Nodup ∧
    (control_grid n).Chain' (· < ·) := by
  have hc : (control_grid n).Chain' (· < ·) := by
    rcases le_or_lt n 500 with h | h
    · exact control_grid_chain_le_500 n h2 h
    · exact control_grid_chain_of_501 n (by omega) h5
  exact ⟨control_grid_length n h2, chain'_lt_nodup hc, hc⟩

/-- Witness for the amended C5 at the sample config's default
`n_grid = 64`. -/
theorem c5_amended_witness :
    (control_grid 64).length = 64 ∧ (control_grid 64).Nodup ∧
    (control_grid 64).Chain' (· < ·) :=
  c5_amended_grid_strictly_increasing 64 (by norm_num) (by norm_num)

/-- **C6.** With `n_grid = 4` the generated grid is
`[0.0, 5.77, 8.16, 10.0]`, and for current value `6.0` the quantizer
returns `8.16` under Increase and `5.77` under Decrease. -/
theorem c6_grid4_scenario :
    control_grid 4 = [0, 577/100, 816/100, 10] ∧
    control_next (control_grid 4) 6 (some true) = 816/100 ∧
    control_next (control_grid 4) 6 (some false) = 577/100 := by
  refine ⟨?_, ?_, ?_⟩ <;> with_unfolding_all rfl

/-- **C7.** In one control cycle, the actuator channel is written iff
both channel reads succeeded and the computed next value differs from the
rounded current command; when no write happens (read failure or no
change) the channel keeps its previous value, and when a write happens
the channel holds exactly the computed next value. -/
theorem c7_write_iff_changed (control_negated : Bool) (lo hi : ℚ) (n_grid : ℕ)
    (drift_ok control_ok : Bool) (drift_raw channel : ℚ) :
    ((brs_control control_negated lo hi n_grid drift_ok control_ok drift_raw
        channel).wrote = true ↔
      (drift_ok = true ∧ control_ok = true ∧
        control_next (control_grid n_grid) (round2 channel)
            (increase_temperature (round2 drift_raw) lo hi control_negated)
          ≠ round2 channel)) ∧
    ((brs_control control_negated lo hi n_grid drift_ok control_ok drift_raw
        channel).wrote = false →
      (brs_control control_negated lo hi n_grid drift_ok control_ok drift_raw
        channel).channel = channel) ∧
    ((brs_control control_negated lo hi n_grid drift_ok control_ok drift_raw
        channel).wrote = true →
      (brs_control control_negated lo hi n_grid drift_ok control_ok drift_raw
        channel).channel =
        control_next (control_grid n_grid) (round2 channel)
          (increase_temperature (round2 drift_raw) lo hi control_negated)) := by
  unfold brs_control
  cases drift_ok with
  | false => simp
  | true =>
    cases control_ok with
    | false => simp
    | true =>
      simp only [Bool.and_self, if_true, ne_eq, Bool.true_and, true_and]
      by_cases hch : round2 channel =
          control_next (control_grid n_grid) (round2 channel)
            (increase_temperature (round2 drift_raw) lo hi control_negated)
      · rw [if_neg (by simpa using hch)]
        simp [← hch, Ne, eq_comm]
      · rw [if_pos (by simpa using hch)]
        refine ⟨by simp [Ne.symm hch], by simp, fun _ => rfl⟩

/-- Witness for C7 at a concrete no-change cycle: thresholds `(-1, 1)`,
grid size 2, drift read `9000`, channel at `0`; the quantized next value
equals the current value, so nothing is written and the channel keeps its
value. -/
theorem c7_write_iff_changed_witness :
    (brs_control false (-1) 1 2 true true 9000 0).channel = 0 := by
  exact (c7_write_iff_changed false (-1) 1 2 true true 9000 0).2.1
    (by with_unfolding_all rfl)

/-- **C8 — counterexample.** The claim says a hardware error in cycle N
is logged, the cycle skipped, and the loop continues to cycle N+1: on the
model that would mean
`schedule_run (hw_error :: rest) k = schedule_run rest (k+1)`.  At the
concrete event list `[hw_error, success]` this is false: the run crashes
after the failing first cycle and the second cycle never executes. -/
theorem c8_counterexample :
    schedule_run [TickOutcome.hw_error, TickOutcome.success] 0 ≠
      schedule_run [TickOutcome.success] 1 := by
  simp [schedule_run]

/-- **C8 — amended.** A hardware error raised by a cycle is not caught by
the scheduling loop: the run crashes right after the failing invocation
and no later event is processed; only a `KeyboardInterrupt` stops the
loop cleanly, and a successful cycle lets the loop continue. -/
theorem c8_amended_hw_error_fatal (rest : List TickOutcome) (executed : ℕ) :
    schedule_run (TickOutcome.hw_error :: rest) executed =
      RunEnd.crashed (executed + 1) ∧
    schedule_run (TickOutcome.keyboard_interrupt :: rest) executed =
      RunEnd.stopped executed ∧
    schedule_run (TickOutcome.success :: rest) executed =
      schedule_run rest (executed + 1) := by
  exact ⟨rfl, rfl, rfl⟩

/-- **C9.** Invoking the program with neither `--config` nor
`--get-config` does not produce an argparse usage error: the `__main__`
block reaches `os.path.splitext(None)` and dies with an uncaught
`TypeError`. -/
theorem c9_missing_config_crashes :
    main_block none false = MainOutcome.type_error_crash ∧
    main_block none false ≠ MainOutcome.usage_error := by
  exact ⟨rfl, by simp [main_block]⟩

/-- **C10.** The sample configuration written by
`generate_sample_config` sets `threshold_lower = 8192` and
`threshold_upper = -8192` — so the shipped defaults violate the
`thresholdLower < thresholdUpper` ordering the threshold decider
expects — and with `--get-config` the program exits after writing it,
never running the control loop. -/
theorem c10_sample_config_thresholds_swapped :
    generate_sample_config.threshold_lower = 8192 ∧
    generate_sample_config.threshold_upper = -8192 ∧
    generate_sample_config.threshold_upper < generate_sample_config.threshold_lower ∧
    ∀ config_path : Option String,
      main_block config_path true = MainOutcome.sample_config_written := by
  exact ⟨rfl, rfl, by norm_num [generate_sample_config], fun _ => rfl⟩

end BrsAutoCentering
